import Mathlib

/-!
Shallow embedding of the relay-layer decision engine exercised by
`conformance/runner/run_cv_bundle.py` (`validate_local_vector`), together with
proofs of the behavioral properties stated about it.

Python integers are embedded as `ℤ` (or `ℕ` where the source value is a byte
count produced from non-negative data), Python `set` of ints as `Finset ℤ`,
Python `Fraction` as `ℚ`, Python floats appearing only in exact decimal
comparisons as `ℚ`, and Python strings as `String`.
-/

namespace RunCvBundle

/-! ## DaSetStateMachine (op `compact_state_machine`, lines 407-469) -/

/-- The four lifecycle states `"A"`, `"B"`, `"C"`, `"EVICTED"`. -/
inductive DaState where
  | A
  | B
  | C
  | EVICTED
deriving DecidableEq, Repr

/-- The mutable per-payload record threaded through the event loop of
op `compact_state_machine`: local variables `chunk_count`, `ttl_cfg`,
`chunks`, `commit_seen`, `state`, `pinned`, `ttl`, `ttl_reset_count`,
`evicted`. -/
structure DaRecord where
  chunkCount : ℤ
  ttlCfg : ℤ
  chunks : Finset ℤ
  commitSeen : Bool
  state : DaState
  pinned : Bool
  ttl : ℤ
  ttlResetCount : ℕ
  evicted : Bool
deriving DecidableEq

/-- Events of the state machine: `{"type": "chunk", "index": i}`,
`{"type": "commit"}`, `{"type": "tick", "blocks": n}`, `{"type": "checkblock"}`. -/
inductive DaEvent where
  | chunk (idx : ℤ)
  | commit
  | tick (blocks : ℤ)
  | checkblock
deriving DecidableEq, Repr

/-- Initial snapshot construction (lines 408-417):
`state = "C" if (commit_seen and len(chunks) == chunk_count) else ("B" if commit_seen else "A")`,
`pinned = state == "C"`, `ttl = ttl_cfg if state in ("A","B") else 0`. -/
def initRecord (chunkCount ttlCfg : ℤ) (chunks0 : Finset ℤ) (commitSeen0 : Bool) :
    DaRecord :=
  let st : DaState :=
    if commitSeen0 = true ∧ (chunks0.card : ℤ) = chunkCount then .C
    else if commitSeen0 = true then .B else .A
  { chunkCount := chunkCount
    ttlCfg := ttlCfg
    chunks := chunks0
    commitSeen := commitSeen0
    state := st
    pinned := decide (st = .C)
    ttl := if st = .A ∨ st = .B then ttlCfg else 0
    ttlResetCount := 0
    evicted := false }

/-- One step of the event loop (lines 419-453).  For a `chunk` event the index
is inserted only when `0 <= idx < chunk_count and state != "EVICTED"`, but the
promotion check `commit_seen and len(chunks) == chunk_count` runs
unconditionally, exactly as in the source.  `checkblock` is read-only. -/
def stepRecord (r : DaRecord) : DaEvent → DaRecord
  | .chunk idx =>
      let chunks' :=
        if 0 ≤ idx ∧ idx < r.chunkCount ∧ r.state ≠ .EVICTED then
          insert idx r.chunks
        else r.chunks
      if r.commitSeen = true ∧ (chunks'.card : ℤ) = r.chunkCount then
        { r with chunks := chunks', state := .C, pinned := true }
      else
        { r with chunks := chunks' }
  | .commit =>
      if r.state ≠ .EVICTED then
        let ttl' := if r.state = .A then r.ttlCfg else r.ttl
        let resets' := if r.state = .A then r.ttlResetCount + 1 else r.ttlResetCount
        if (r.chunks.card : ℤ) = r.chunkCount then
          { r with ttl := ttl', ttlResetCount := resets', commitSeen := true,
                   state := .C, pinned := true }
        else
          { r with ttl := ttl', ttlResetCount := resets', commitSeen := true,
                   state := .B, pinned := false }
      else r
  | .tick blocks =>
      if r.state = .A ∨ r.state = .B then
        let ttl' := r.ttl - blocks
        if ttl' ≤ 0 then
          { r with state := .EVICTED, evicted := true, commitSeen := false,
                   chunks := ∅, pinned := false, ttl := 0 }
        else
          { r with ttl := ttl' }
      else r
  | .checkblock => r

/-- Folding the event loop over an event list. -/
def runRecord (r : DaRecord) (evs : List DaEvent) : DaRecord :=
  evs.foldl stepRecord r

/-- `checkblock` observation (line 451): `commit_seen and len(chunks) == chunk_count`. -/
def checkblockResult (r : DaRecord) : Bool :=
  r.commitSeen && decide ((r.chunks.card : ℤ) = r.chunkCount)

/-- The configuration in which the loop leaves an evicted record (lines
444-449): state `"EVICTED"`, received set cleared, `commit_seen` false,
`pinned` false. -/
def evictedCfg (r : DaRecord) : Prop :=
  r.state = .EVICTED ∧ r.chunks = ∅ ∧ r.commitSeen = false ∧ r.pinned = false

instance (r : DaRecord) : Decidable (evictedCfg r) := by
  unfold evictedCfg; infer_instance

/-- Discriminator for tick events. -/
def DaEvent.isTick : DaEvent → Bool
  | .tick _ => true
  | _ => false

/-- Run-level invariant used for the confluence property: the chunk count is
constant, the record is not evicted, the received set stays inside
`[0, chunk_count)`, and state `"C"` holds exactly when the commit has been
seen and the set is complete. -/
structure ChunkInv (cc : ℤ) (r : DaRecord) : Prop where
  count_eq : r.chunkCount = cc
  notEvicted : r.state ≠ .EVICTED
  subset : r.chunks ⊆ Finset.Icc 0 (cc - 1)
  c_iff : r.state = .C ↔ (r.commitSeen = true ∧ (r.chunks.card : ℤ) = cc)

/-! ## PeerQualityTracker (ops `compact_peer_quality` lines 567-608 and
`compact_grace_period` lines 691-723; both use the identical delta table and
grace-halving loop) -/

/-- The seven peer-quality event kinds of the `deltas` table. -/
inductive PeerEvent where
  | reconstruct_no_getblocktxn
  | getblocktxn_first_try
  | prefetch_completed
  | incomplete_set
  | getblocktxn_required
  | full_block_required
  | prefetch_cap_exceeded
deriving DecidableEq, Repr

/-- The `deltas` lookup table (lines 571-579 and 697-705). -/
def eventDelta : PeerEvent → ℤ
  | .reconstruct_no_getblocktxn => 2
  | .getblocktxn_first_try => 1
  | .prefetch_completed => 1
  | .incomplete_set => -5
  | .getblocktxn_required => -3
  | .full_block_required => -10
  | .prefetch_cap_exceeded => -2

/-- One loop iteration (lines 581-588 / 706-713): when grace is active a
negative delta is replaced by `int(delta / 2)` — Python truncation toward
zero, i.e. `Int.tdiv` — then the score is clamped to `[0, 100]`. -/
def applyPeerEvent (grace : Bool) (score : ℤ) (e : PeerEvent) : ℤ :=
  let delta := eventDelta e
  let delta' := if grace = true ∧ delta < 0 then Int.tdiv delta 2 else delta
  max 0 (min 100 (score + delta'))

/-- Folding the score update over an event list. -/
def runPeerEvents (grace : Bool) (score : ℤ) (events : List PeerEvent) : ℤ :=
  events.foldl (applyPeerEvent grace) score

/-- Claim-side description of grace dampening: a negative delta is halved
with truncation toward zero (`-5 → -2`), a non-negative delta is unchanged.
Written independently of `Int.tdiv`, via natural-number halving of `|delta|`. -/
def gracedDeltaSpec (delta : ℤ) : ℤ :=
  if delta < 0 then -(((-delta).toNat / 2 : ℕ) : ℤ) else delta

/-! ## RelayModeNegotiator (op `compact_sendcmpct_modes`, lines 533-565) -/

/-- Inputs of `compute_mode` (lines 534-538).  The float `miss_rate_pct` is
embedded as an exact rational. -/
structure RelayInputs where
  in_ibd : Bool
  warmup_done : Bool
  miss_rate_pct : ℚ
  miss_rate_blocks : ℤ
deriving DecidableEq

/-- `compute_mode` (lines 540-548): evaluated in order, first match wins. -/
def computeMode (p : RelayInputs) : ℕ :=
  if p.in_ibd = true then 0
  else if p.miss_rate_pct > 10 ∧ p.miss_rate_blocks ≥ 5 then 0
  else if p.warmup_done = true ∧ p.miss_rate_pct ≤ 1/2 then 2
  else if p.warmup_done = true then 1
  else 0

/-! ## AdmissionController storm mode (op `compact_orphan_storm`, lines
489-516, and op `compact_storm_commit_bearing`, lines 902-934).  The float
percentages are embedded as exact rationals. -/

/-- `fill_pct = 0.0 if global_limit <= 0 else (100.0 * current_global / global_limit)`
(line 498). -/
def fillPct (currentGlobal globalLimit : ℤ) : ℚ :=
  if globalLimit ≤ 0 then 0 else 100 * (currentGlobal : ℚ) / (globalLimit : ℚ)

/-- `storm_mode = fill_pct > storm_trigger_pct` (line 499). -/
def stormMode (currentGlobal globalLimit : ℤ) (stormTriggerPct : ℚ) : Bool :=
  decide (fillPct currentGlobal globalLimit > stormTriggerPct)

/-- Admission decision of op `compact_orphan_storm` (lines 502-504):
`admit = current_global + incoming_chunk <= global_limit`, then forced to
false when `storm_mode and not incoming_has_commit`. -/
def admitStorm (currentGlobal globalLimit incomingChunk : ℤ)
    (incomingHasCommit : Bool) (stormTriggerPct : ℚ) : Bool :=
  let admitBase := decide (currentGlobal + incomingChunk ≤ globalLimit)
  if stormMode currentGlobal globalLimit stormTriggerPct = true ∧
      incomingHasCommit = false then
    false
  else admitBase

/-- `commit_bearing` (lines 909-911): the item is a commit, or a chunk of an
already-committed payload, or part of a block carrying a commit. -/
def commitBearing (containsCommit containsChunkForKnownCommit
    containsBlockWithCommit : Bool) : Bool :=
  containsCommit || containsChunkForKnownCommit || containsBlockWithCommit

/-- Admission decision of op `compact_storm_commit_bearing` (lines 912-916):
`admit = True`, forced to false when `storm_mode and not commit_bearing`. -/
def admitCommitBearing (fillPctIn triggerPct : ℚ)
    (containsCommit containsChunkForKnownCommit containsBlockWithCommit : Bool) :
    Bool :=
  let storm := decide (fillPctIn > triggerPct)
  if storm = true ∧
      commitBearing containsCommit containsChunkForKnownCommit
        containsBlockWithCommit = false then
    false
  else true

/-! ## EvictionPolicy (op `compact_eviction_tiebreak`, lines 725-756) -/

/-- A raw candidate entry `{da_id, fee, wire_bytes, received_time}`
(lines 731-743). -/
structure EvictionEntry where
  da_id : String
  fee : ℤ
  wire_bytes : ℤ
  received_time : ℤ
deriving DecidableEq, Repr

/-- The normalized tuple `(da_id, Fraction(fee, wire_bytes), received_time)`
built at line 743; `Fraction` is the exact rational `fee / wire_bytes`. -/
structure NormEntry where
  da_id : String
  density : ℚ
  received_time : ℤ
deriving DecidableEq, Repr

/-- Normalization of one entry (line 743). -/
def normalize (e : EvictionEntry) : NormEntry :=
  ⟨e.da_id, (e.fee : ℚ) / (e.wire_bytes : ℚ), e.received_time⟩

/-- Lexicographic byte-wise comparison of character lists — the comparison
Python applies to the `da_id` strings inside the sort key tuple. -/
def charListLe : List Char → List Char → Bool
  | [], _ => true
  | _ :: _, [] => false
  | a :: as, b :: bs =>
      if a < b then true else if b < a then false else charListLe as bs

/-- String comparison via the underlying character list. -/
def strLe (a b : String) : Bool :=
  charListLe a.data b.data

/-- Python tuple comparison of the sort keys `(x[1], x[2], x[0])` used at
line 745: fee-density first, then `received_time`, then `da_id`. -/
def normLe (a b : NormEntry) : Bool :=
  if a.density < b.density then true
  else if b.density < a.density then false
  else if a.received_time < b.received_time then true
  else if b.received_time < a.received_time then false
  else strLe a.da_id b.da_id

/-- `sorted(normalized, key=...)` (line 745): a comparison sort by the
lexicographic key. -/
def sortedNormalized (entries : List EvictionEntry) : List NormEntry :=
  (entries.map normalize).mergeSort normLe

/-- `order = [x[0] for x in sorted(...)]` (line 745). -/
def evictOrder (entries : List EvictionEntry) : List String :=
  (sortedNormalized entries).map NormEntry.da_id

/-! ## Duplicate-commit resolution (op `compact_duplicate_commit`,
lines 812-864) -/

/-- One commit observation `{da_id, peer}` (lines 826-827). -/
structure CommitObs where
  da_id : String
  peer : String
deriving DecidableEq, Repr

/-- The loop accumulator: mutable variables `target_da_id`,
`first_seen_peer`, `duplicates_dropped`, `penalized_peers` (lines 813,
819-821). -/
structure DupAcc where
  target : String
  firstSeenPeer : Option String
  duplicatesDropped : ℕ
  penalizedPeers : List String
deriving DecidableEq, Repr

/-- One iteration of the commit loop (lines 822-839).  An entry with an empty
`da_id` or `peer` aborts the vector (`none`); a commit for a different id is
skipped; the first matching commit records its peer; every later matching
commit increments `duplicates_dropped` and appends its peer — with no
comparison against the retained peer. -/
def dupCommitStep (acc : DupAcc) (c : CommitObs) : Option DupAcc :=
  if c.da_id = "" ∨ c.peer = "" then none
  else
    let target := if acc.target = "" then c.da_id else acc.target
    if c.da_id ≠ target then some { acc with target := target }
    else
      match acc.firstSeenPeer with
      | none => some { acc with target := target, firstSeenPeer := some c.peer }
      | some _ =>
          some { acc with
                  target := target
                  duplicatesDropped := acc.duplicatesDropped + 1
                  penalizedPeers := acc.penalizedPeers ++ [c.peer] }

/-- The observable result of the op: `retained_peer`, `duplicates_dropped`,
`penalized_peers`, and `replaced`, which is the constant `False` (line 841). -/
structure DupResult where
  retainedPeer : Option String
  duplicatesDropped : ℕ
  penalizedPeers : List String
  replaced : Bool
deriving DecidableEq, Repr

/-- The full op: requires a non-empty commit list (lines 814-817), folds the
loop, and reads off the result fields. -/
def resolveDuplicateCommits (targetDaId : String) (commits : List CommitObs) :
    Option DupResult :=
  if commits = [] then none
  else
    (commits.foldlM dupCommitStep ⟨targetDaId, none, 0, []⟩).map
      (fun acc => ⟨acc.firstSeenPeer, acc.duplicatesDropped,
        acc.penalizedPeers, false⟩)

/-! ## WireCodec witness round-trip (op `compact_witness_roundtrip`,
lines 260-341).  Bytes are `ℕ` values; `n >> (8*i) & 0xFF` is embedded as
`n / 2^(8*i) % 256`, and the byte-or of disjoint shifted bytes on decode as
the corresponding sum. -/

/-- `enc_compact_size` (lines 265-283). -/
def encCompactSize (n : ℕ) : List ℕ :=
  if n < 0xFD then [n]
  else if n ≤ 0xFFFF then [0xFD, n % 256, n / 2 ^ 8 % 256]
  else if n ≤ 0xFFFFFFFF then
    [0xFE, n % 256, n / 2 ^ 8 % 256, n / 2 ^ 16 % 256, n / 2 ^ 24 % 256]
  else
    [0xFF, n % 256, n / 2 ^ 8 % 256, n / 2 ^ 16 % 256, n / 2 ^ 24 % 256,
      n / 2 ^ 32 % 256, n / 2 ^ 40 % 256, n / 2 ^ 48 % 256, n / 2 ^ 56 % 256]

/-- `dec_compact_size` (lines 295-312): reads `buf[o]` and, per prefix class,
the following bytes, returning the value and the new offset.  The Python
reads are always in bounds in this op; out-of-range indices default to 0. -/
def decCompactSize (buf : List ℕ) (o : ℕ) : ℕ × ℕ :=
  let pfx := buf.getD o 0
  if pfx < 0xFD then (pfx, o + 1)
  else if pfx = 0xFD then
    (buf.getD (o + 1) 0 + buf.getD (o + 2) 0 * 2 ^ 8, o + 3)
  else if pfx = 0xFE then
    (buf.getD (o + 1) 0 + buf.getD (o + 2) 0 * 2 ^ 8 +
      buf.getD (o + 3) 0 * 2 ^ 16 + buf.getD (o + 4) 0 * 2 ^ 24, o + 5)
  else
    (buf.getD (o + 1) 0 + buf.getD (o + 2) 0 * 2 ^ 8 +
      buf.getD (o + 3) 0 * 2 ^ 16 + buf.getD (o + 4) 0 * 2 ^ 24 +
      buf.getD (o + 5) 0 * 2 ^ 32 + buf.getD (o + 6) 0 * 2 ^ 40 +
      buf.getD (o + 7) 0 * 2 ^ 48 + buf.getD (o + 8) 0 * 2 ^ 56, o + 9)

/-- The encoded wire (lines 285-290): `suite_id & 0xFF`, compact-size pubkey
length, `pub_len` filler bytes `0x11`, compact-size sig length, `sig_len`
filler bytes `0x22`. -/
def witnessWire (suiteId pubLen sigLen : ℕ) : List ℕ :=
  [suiteId % 256] ++
    (encCompactSize pubLen ++
      (List.replicate pubLen 0x11 ++
        (encCompactSize sigLen ++ List.replicate sigLen 0x22)))

/-- The immediate decode and structural comparison (lines 292-329):
`roundtrip_ok` is the conjunction, in source order, of the equality of
`suite_id`, both lengths, both decoded byte-run lengths, and the exact
consumption of the buffer. -/
def witnessRoundtripOk (suiteId pubLen sigLen : ℕ) : Bool :=
  let wire := witnessWire suiteId pubLen sigLen
  let suite2 := wire.getD 0 0
  let p1 := decCompactSize wire 1
  let pub2 := p1.1
  let off1 := p1.2
  let pubBytes := (wire.drop off1).take pub2
  let off2 := off1 + pub2
  let p2 := decCompactSize wire off2
  let sig2 := p2.1
  let off3 := p2.2
  let sigBytes := (wire.drop off3).take sig2
  let off4 := off3 + sig2
  decide (suite2 = suiteId) && decide (pub2 = pubLen) && decide (sig2 = sigLen) &&
    decide (pubBytes.length = pubLen) && decide (sigBytes.length = sigLen) &&
    decide (off4 = wire.length)

/-! Helper lemmas about the state machine. -/

/-- Every step keeps `pinned` equal to `state == "C"`: each assignment to
`state` in the loop body is paired with the matching assignment to `pinned`. -/
theorem stepRecord_pinned_sync (r : DaRecord) (e : DaEvent)
    (h : r.pinned = decide (r.state = .C)) :
    (stepRecord r e).pinned = decide ((stepRecord r e).state = .C) := by
  cases e with
  | chunk idx =>
      simp only [stepRecord]
      split <;> split <;> simp [h]
  | commit =>
      simp only [stepRecord]
      split
      · split <;> simp
      · exact h
  | tick blocks =>
      simp only [stepRecord]
      split
      · rename_i hst
        have : r.state ≠ .C := by
          rcases hst with h1 | h1 <;> simp [h1]
        split <;> simp [h, this]
      · exact h
  | checkblock => exact h

theorem runRecord_pinned_sync (r : DaRecord) (evs : List DaEvent)
    (h : r.pinned = decide (r.state = .C)) :
    (runRecord r evs).pinned = decide ((runRecord r evs).state = .C) := by
  induction evs generalizing r with
  | nil => exact h
  | cons e rest ih => exact ih (stepRecord r e) (stepRecord_pinned_sync r e h)

theorem initRecord_pinned_sync (cc ttl : ℤ) (ch0 : Finset ℤ) (cs0 : Bool) :
    (initRecord cc ttl ch0 cs0).pinned =
      decide ((initRecord cc ttl ch0 cs0).state = .C) := rfl

/-- In the evicted configuration every event is a no-op on the record. -/
theorem stepRecord_of_evictedCfg (r : DaRecord) (h : evictedCfg r) (e : DaEvent) :
    stepRecord r e = r := by
  obtain ⟨hs, hch, hcs, hp⟩ := h
  cases e with
  | chunk idx =>
      simp only [stepRecord, hs, hcs]
      simp only [Bool.false_eq_true, false_and, and_false, if_neg, ite_false,
        not_false_eq_true]
      rw [← hcs, ← hs]
      simp
  | commit => simp [stepRecord, hs]
  | tick blocks =>
      have : ¬(r.state = .A ∨ r.state = .B) := by simp [hs]
      simp [stepRecord, this]
  | checkblock => rfl

theorem runRecord_of_evictedCfg (r : DaRecord) (h : evictedCfg r)
    (evs : List DaEvent) : runRecord r evs = r := by
  induction evs with
  | nil => rfl
  | cons e rest ih =>
      show runRecord (stepRecord r e) rest = r
      rw [stepRecord_of_evictedCfg r h e]
      exact ih

/-- Each step preserves the invariant "if the state is EVICTED then the full
evicted configuration holds".  The only assignment of state `"EVICTED"` in the
loop body (the tick branch) also clears the set, `commit_seen` and `pinned`. -/
theorem stepRecord_evicted_inv (r : DaRecord) (e : DaEvent)
    (h : r.state = .EVICTED → evictedCfg r) :
    (stepRecord r e).state = .EVICTED → evictedCfg (stepRecord r e) := by
  by_cases hev : r.state = .EVICTED
  · rw [stepRecord_of_evictedCfg r (h hev) e]; exact h
  · intro hafter
    cases e with
    | chunk idx =>
        exfalso
        revert hafter
        simp only [stepRecord]
        split <;> split <;> simp_all
    | commit =>
        exfalso
        revert hafter
        simp only [stepRecord]
        split
        · split <;> simp_all
        · simp_all
    | tick blocks =>
        revert hafter
        simp only [stepRecord]
        split
        · split
          · intro _; exact ⟨rfl, rfl, rfl, rfl⟩
          · simp_all
        · simp_all
    | checkblock => exact absurd hafter hev

theorem runRecord_evicted_inv (r : DaRecord) (evs : List DaEvent)
    (h : r.state = .EVICTED → evictedCfg r) :
    (runRecord r evs).state = .EVICTED → evictedCfg (runRecord r evs) := by
  induction evs generalizing r with
  | nil => exact h
  | cons e rest ih => exact ih (stepRecord r e) (stepRecord_evicted_inv r e h)

theorem initRecord_evicted_inv (cc ttl : ℤ) (ch0 : Finset ℤ) (cs0 : Bool) :
    (initRecord cc ttl ch0 cs0).state = .EVICTED →
      evictedCfg (initRecord cc ttl ch0 cs0) := by
  intro h
  exfalso
  revert h
  simp only [initRecord]
  split
  · simp
  · split <;> simp

theorem stepRecord_chunkCount (r : DaRecord) (e : DaEvent) :
    (stepRecord r e).chunkCount = r.chunkCount := by
  cases e with
  | chunk idx => simp only [stepRecord]; split <;> split <;> rfl
  | commit =>
      simp only [stepRecord]
      split
      · split <;> rfl
      · rfl
  | tick blocks =>
      simp only [stepRecord]
      split
      · split <;> rfl
      · rfl
  | checkblock => rfl

theorem stepRecord_not_evicted (r : DaRecord) (e : DaEvent)
    (ht : e.isTick = false) (h : r.state ≠ .EVICTED) :
    (stepRecord r e).state ≠ .EVICTED := by
  cases e with
  | chunk idx => simp only [stepRecord]; split <;> split <;> simp_all
  | commit =>
      simp only [stepRecord]
      rw [if_pos h]
      split <;> simp
  | tick blocks => simp [DaEvent.isTick] at ht
  | checkblock => exact h

theorem stepRecord_chunks_mono (r : DaRecord) (e : DaEvent)
    (ht : e.isTick = false) : r.chunks ⊆ (stepRecord r e).chunks := by
  cases e with
  | chunk idx =>
      simp only [stepRecord]
      split <;> split <;> first
        | exact Finset.subset_insert _ _
        | exact Finset.Subset.refl _
  | commit =>
      simp only [stepRecord]
      split
      · split <;> exact Finset.Subset.refl _
      · exact Finset.Subset.refl _
  | tick blocks => simp [DaEvent.isTick] at ht
  | checkblock => exact Finset.Subset.refl _

theorem stepRecord_commitSeen_mono (r : DaRecord) (e : DaEvent)
    (ht : e.isTick = false) (h : r.commitSeen = true) :
    (stepRecord r e).commitSeen = true := by
  cases e with
  | chunk idx => simp only [stepRecord]; split <;> split <;> exact h
  | commit =>
      simp only [stepRecord]
      split
      · split <;> rfl
      · exact h
  | tick blocks => simp [DaEvent.isTick] at ht
  | checkblock => exact h

theorem runRecord_chunks_mono (r : DaRecord) (evs : List DaEvent)
    (ht : ∀ e ∈ evs, e.isTick = false) : r.chunks ⊆ (runRecord r evs).chunks := by
  induction evs generalizing r with
  | nil => exact Finset.Subset.refl _
  | cons e rest ih =>
      exact (stepRecord_chunks_mono r e (ht e (List.mem_cons_self e rest))).trans
        (ih (stepRecord r e) (fun x hx => ht x (List.mem_cons_of_mem e hx)))

theorem runRecord_commitSeen_mono (r : DaRecord) (evs : List DaEvent)
    (ht : ∀ e ∈ evs, e.isTick = false) (h : r.commitSeen = true) :
    (runRecord r evs).commitSeen = true := by
  induction evs generalizing r with
  | nil => exact h
  | cons e rest ih =>
      exact ih (stepRecord r e) (fun x hx => ht x (List.mem_cons_of_mem e hx))
        (stepRecord_commitSeen_mono r e (ht e (List.mem_cons_self e rest)) h)

theorem stepRecord_chunk_mem (r : DaRecord) (j : ℤ)
    (h : r.state ≠ .EVICTED) (h0 : 0 ≤ j) (h1 : j < r.chunkCount) :
    j ∈ (stepRecord r (.chunk j)).chunks := by
  have hg : 0 ≤ j ∧ j < r.chunkCount ∧ r.state ≠ .EVICTED := ⟨h0, h1, h⟩
  simp only [stepRecord]
  rw [if_pos hg]
  split <;> exact Finset.mem_insert_self j r.chunks

theorem card_Icc_chunks (cc : ℤ) : (Finset.Icc (0 : ℤ) (cc - 1)).card = cc.toNat := by
  rw [Int.card_Icc]
  congr 1
  ring

theorem chunks_eq_Icc_of_full (cc : ℤ) (s : Finset ℤ)
    (hsub : s ⊆ Finset.Icc 0 (cc - 1)) (hcard : (s.card : ℤ) = cc) :
    s = Finset.Icc 0 (cc - 1) := by
  apply Finset.eq_of_subset_of_card_le hsub
  rw [card_Icc_chunks]
  omega

theorem chunkInv_step (cc : ℤ) (r : DaRecord) (e : DaEvent)
    (he : e = .commit ∨ ∃ i, e = .chunk i) (h : ChunkInv cc r) :
    ChunkInv cc (stepRecord r e) := by
  obtain ⟨hcc, hne, hsub, hiff⟩ := h
  rcases he with he | ⟨i, he⟩
  · subst he
    simp only [stepRecord]
    rw [if_pos hne]
    by_cases hcard : (r.chunks.card : ℤ) = r.chunkCount
    · rw [if_pos hcard]
      exact ⟨hcc, by simp, hsub, by simp [hcc ▸ hcard]⟩
    · rw [if_neg hcard]
      exact ⟨hcc, by simp, hsub, by simp [hcc ▸ hcard]⟩
  · subst he
    simp only [stepRecord]
    set chunks' :=
      if 0 ≤ i ∧ i < r.chunkCount ∧ r.state ≠ .EVICTED then insert i r.chunks
      else r.chunks with hchunks'
    have hsub' : chunks' ⊆ Finset.Icc 0 (cc - 1) := by
      rw [hchunks']
      split
      · rename_i hg
        intro x hx
        rcases Finset.mem_insert.mp hx with hx | hx
        · subst hx
          rw [Finset.mem_Icc]
          omega
        · exact hsub hx
      · exact hsub
    by_cases hpromo : r.commitSeen = true ∧ (chunks'.card : ℤ) = r.chunkCount
    · rw [if_pos hpromo]
      exact ⟨hcc, by simp, hsub', by simp [hcc ▸ hpromo.2, hpromo.1]⟩
    · rw [if_neg hpromo]
      refine ⟨hcc, hne, hsub', ?_⟩
      constructor
      · intro hC
        exfalso
        obtain ⟨hcs, hcard⟩ := hiff.mp hC
        have hfull : r.chunks = Finset.Icc 0 (cc - 1) :=
          chunks_eq_Icc_of_full cc r.chunks hsub (hcc ▸ hcard)
        have hchunks'eq : chunks' = r.chunks := by
          rw [hchunks']
          split
          · rename_i hg
            apply Finset.insert_eq_self.mpr
            rw [hfull, Finset.mem_Icc]
            omega
          · rfl
        exact hpromo ⟨hcs, by rw [hchunks'eq, hcc]; exact hcard⟩
      · intro ⟨hcs, hcard⟩
        exact absurd ⟨hcs, by rw [hcc]; exact hcard⟩ hpromo

theorem chunkInv_run (cc : ℤ) (r : DaRecord) (evs : List DaEvent)
    (he : ∀ e ∈ evs, e = .commit ∨ ∃ i, e = .chunk i) (h : ChunkInv cc r) :
    ChunkInv cc (runRecord r evs) := by
  induction evs generalizing r with
  | nil => exact h
  | cons e rest ih =>
      exact ih (stepRecord r e) (fun x hx => he x (List.mem_cons_of_mem e hx))
        (chunkInv_step cc r e (he e (List.mem_cons_self e rest)) h)

theorem chunkOrCommit_not_tick (e : DaEvent)
    (he : e = .commit ∨ ∃ i, e = .chunk i) : e.isTick = false := by
  rcases he with he | ⟨i, he⟩ <;> subst he <;> rfl

theorem runRecord_append (r : DaRecord) (l1 l2 : List DaEvent) :
    runRecord r (l1 ++ l2) = runRecord (runRecord r l1) l2 :=
  List.foldl_append stepRecord r l1 l2

theorem stepRecord_commit_commitSeen (r : DaRecord) (h : r.state ≠ .EVICTED) :
    (stepRecord r .commit).commitSeen = true := by
  simp only [stepRecord]
  rw [if_pos h]
  split <;> rfl

/-- C10: implicit invariant of the DA-set state machine: for every initial
snapshot and every event sequence of chunk/commit/tick/checkblock events,
after each processed event `pinned` is true if and only if `state == "C"`. -/
theorem claim_C10_pinned_iff_state_C (cc ttl : ℤ) (ch0 : Finset ℤ) (cs0 : Bool)
    (evs : List DaEvent) :
    (runRecord (initRecord cc ttl ch0 cs0) evs).pinned = true ↔
      (runRecord (initRecord cc ttl ch0 cs0) evs).state = DaState.C := by
  rw [runRecord_pinned_sync _ evs (initRecord_pinned_sync cc ttl ch0 cs0)]
  simp

/-- C3: EVICTED is absorbing: once a record reaches state EVICTED (which only
the tick branch can produce), every subsequent event — in particular every
`chunk(index)` or `commit()` — leaves the record unchanged, with the received
set empty, `commit_seen` false and `pinned` false. -/
theorem claim_C3_evicted_absorbing (cc ttl : ℤ) (ch0 : Finset ℤ) (cs0 : Bool)
    (evs evs' : List DaEvent)
    (h : (runRecord (initRecord cc ttl ch0 cs0) evs).state = DaState.EVICTED) :
    runRecord (runRecord (initRecord cc ttl ch0 cs0) evs) evs' =
        runRecord (initRecord cc ttl ch0 cs0) evs ∧
      (runRecord (initRecord cc ttl ch0 cs0) evs).chunks = ∅ ∧
      (runRecord (initRecord cc ttl ch0 cs0) evs).commitSeen = false ∧
      (runRecord (initRecord cc ttl ch0 cs0) evs).pinned = false := by
  have hc : evictedCfg (runRecord (initRecord cc ttl ch0 cs0) evs) :=
    runRecord_evicted_inv _ evs (initRecord_evicted_inv cc ttl ch0 cs0) h
  exact ⟨runRecord_of_evictedCfg _ hc evs', hc.2.1, hc.2.2.1, hc.2.2.2⟩

/-- Witness for C3 at a concrete input: `chunk_count=1, ttl=1`, a single
`tick(1)` evicts, and subsequent `chunk(0)` and `commit()` leave the record
unchanged. -/
theorem claim_C3_evicted_absorbing_witness :
    (runRecord (initRecord 1 1 ∅ false) [DaEvent.tick 1]).state = DaState.EVICTED ∧
      runRecord (runRecord (initRecord 1 1 ∅ false) [DaEvent.tick 1])
          [DaEvent.chunk 0, DaEvent.commit] =
        runRecord (initRecord 1 1 ∅ false) [DaEvent.tick 1] :=
  ⟨by decide,
    (claim_C3_evicted_absorbing 1 1 ∅ false [DaEvent.tick 1]
      [DaEvent.chunk 0, DaEvent.commit] (by decide)).1⟩

/-- C2: DaSetStateMachine confluence: starting from state A (no commit seen,
any subset of valid chunks received), every interleaving of `chunk` events and
exactly one `commit()` that together cover all indices `0..chunk_count-1`,
with no tick events, ends in state C with `pinned=true`. -/
theorem claim_C2_confluence (cc ttl : ℤ) (ch0 : Finset ℤ) (evs : List DaEvent)
    (hcc : 0 ≤ cc)
    (hch0 : ch0 ⊆ Finset.Icc 0 (cc - 1))
    (hkinds : ∀ e ∈ evs, e = DaEvent.commit ∨ ∃ i, e = DaEvent.chunk i)
    (hone : evs.count DaEvent.commit = 1)
    (hcov : ∀ j : ℤ, 0 ≤ j → j < cc → DaEvent.chunk j ∈ evs) :
    (runRecord (initRecord cc ttl ch0 false) evs).state = DaState.C ∧
      (runRecord (initRecord cc ttl ch0 false) evs).pinned = true := by
  have inv0 : ChunkInv cc (initRecord cc ttl ch0 false) := by
    refine ⟨rfl, ?_, hch0, ?_⟩
    · simp [initRecord]
    · simp [initRecord]
  have invf : ChunkInv cc (runRecord (initRecord cc ttl ch0 false) evs) :=
    chunkInv_run cc _ evs hkinds inv0
  -- the single commit event sets commit_seen, which then persists
  have hcsf : (runRecord (initRecord cc ttl ch0 false) evs).commitSeen = true := by
    have hmem : DaEvent.commit ∈ evs := by
      have : 0 < evs.count DaEvent.commit := by omega
      exact List.count_pos_iff.mp this
    obtain ⟨l1, l2, rfl⟩ := List.append_of_mem hmem
    rw [runRecord_append, runRecord]
    rw [List.foldl_cons]
    have hinv1 : ChunkInv cc (runRecord (initRecord cc ttl ch0 false) l1) :=
      chunkInv_run cc _ l1
        (fun e he => hkinds e (List.mem_append_left _ he)) inv0
    exact runRecord_commitSeen_mono _ l2
      (fun e he => chunkOrCommit_not_tick e
        (hkinds e (List.mem_append_right _ (List.mem_cons_of_mem _ he))))
      (stepRecord_commit_commitSeen _ hinv1.notEvicted)
  -- every valid index ends up in the received set
  have hfull : ∀ j : ℤ, 0 ≤ j → j < cc →
      j ∈ (runRecord (initRecord cc ttl ch0 false) evs).chunks := by
    intro j h0 h1
    obtain ⟨l1, l2, heq⟩ := List.append_of_mem (hcov j h0 h1)
    rw [heq, runRecord_append, runRecord, List.foldl_cons]
    have hinv1 : ChunkInv cc (runRecord (initRecord cc ttl ch0 false) l1) :=
      chunkInv_run cc _ l1
        (fun e he => hkinds e (heq ▸ List.mem_append_left _ he)) inv0
    refine runRecord_chunks_mono _ l2
      (fun e he => chunkOrCommit_not_tick e
        (hkinds e (heq ▸ List.mem_append_right _ (List.mem_cons_of_mem _ he)))) ?_
    exact stepRecord_chunk_mem _ j hinv1.notEvicted h0 (by rw [hinv1.count_eq]; exact h1)
  have hchunks : (runRecord (initRecord cc ttl ch0 false) evs).chunks =
      Finset.Icc 0 (cc - 1) := by
    apply Finset.Subset.antisymm invf.subset
    intro x hx
    rw [Finset.mem_Icc] at hx
    exact hfull x hx.1 (by omega)
  have hcard : ((runRecord (initRecord cc ttl ch0 false) evs).chunks.card : ℤ) = cc := by
    rw [hchunks, card_Icc_chunks]
    omega
  have hstate : (runRecord (initRecord cc ttl ch0 false) evs).state = DaState.C :=
    invf.c_iff.mpr ⟨hcsf, hcard⟩
  refine ⟨hstate, ?_⟩
  rw [runRecord_pinned_sync _ evs (initRecord_pinned_sync cc ttl ch0 false), hstate]
  rfl

/-- Witness for C2 at a concrete input: `chunk_count=2`, events
`[chunk(0), commit(), chunk(1)]` reach C with `pinned=true`. -/
theorem claim_C2_confluence_witness :
    (runRecord (initRecord 2 3 ∅ false)
        [DaEvent.chunk 0, DaEvent.commit, DaEvent.chunk 1]).state = DaState.C ∧
      (runRecord (initRecord 2 3 ∅ false)
        [DaEvent.chunk 0, DaEvent.commit, DaEvent.chunk 1]).pinned = true :=
  claim_C2_confluence 2 3 ∅ [DaEvent.chunk 0, DaEvent.commit, DaEvent.chunk 1]
    (by decide)
    (by intro x hx; simp at hx)
    (by
      intro e he
      rcases List.mem_cons.mp he with h | he
      · exact Or.inr ⟨0, h⟩
      rcases List.mem_cons.mp he with h | he
      · exact Or.inl h
      rcases List.mem_cons.mp he with h | he
      · exact Or.inr ⟨1, h⟩
      · simp at he)
    (by decide)
    (by
      intro j h0 h1
      interval_cases j
      · simp
      · simp)

/-- C7: peer-quality grace-period dampening: with grace active, each event's
negative delta is halved with truncation toward zero (−5→−2, −3→−1, −10→−5)
before being applied and clamped, positive deltas are applied unchanged, and
an `incomplete_set` event at score 50 with grace active yields score 48. -/
theorem claim_C7_grace_dampening :
    (∀ (s : ℤ) (e : PeerEvent),
        applyPeerEvent true s e =
          max 0 (min 100 (s + gracedDeltaSpec (eventDelta e)))) ∧
      (∀ (s : ℤ) (e : PeerEvent), 0 ≤ eventDelta e →
        applyPeerEvent true s e = max 0 (min 100 (s + eventDelta e))) ∧
      gracedDeltaSpec (-5) = -2 ∧
      gracedDeltaSpec (-3) = -1 ∧
      gracedDeltaSpec (-10) = -5 ∧
      runPeerEvents true 50 [PeerEvent.incomplete_set] = 48 := by
  refine ⟨?_, ?_, by decide, by decide, by decide, by decide⟩
  · intro s e
    cases e <;>
      simp [applyPeerEvent, eventDelta, gracedDeltaSpec,
        show Int.tdiv 5 2 = 2 from by decide,
        show Int.tdiv 3 2 = 1 from by decide,
        show Int.tdiv 10 2 = 5 from by decide]
  · intro s e h
    cases e
    all_goals first
      | exact absurd h (by decide)
      | simp [applyPeerEvent, eventDelta]

/-- Witness for C7: the implication of the second conjunct discharged at a
concrete positive-delta event. -/
theorem claim_C7_grace_dampening_witness :
    applyPeerEvent true 50 PeerEvent.prefetch_completed =
      max 0 (min 100 (50 + eventDelta PeerEvent.prefetch_completed)) :=
  claim_C7_grace_dampening.2.1 50 PeerEvent.prefetch_completed (by decide)

/-- C9: RelayModeNegotiator is the pure first-match function of
`(in_ibd, warmup_done, miss_rate_pct, miss_rate_blocks)`: in_ibd ⇒ 0; else
miss_rate_pct>10 ∧ miss_rate_blocks≥5 ⇒ 0; else warmup_done ∧
miss_rate_pct≤0.5 ⇒ 2; else warmup_done ⇒ 1; else 0.  In particular
in_ibd=true gives mode 0 regardless of the other inputs. -/
theorem claim_C9_relay_mode (p : RelayInputs) :
    (p.in_ibd = true → computeMode p = 0) ∧
      (p.in_ibd = false → p.miss_rate_pct > 10 → p.miss_rate_blocks ≥ 5 →
        computeMode p = 0) ∧
      (p.in_ibd = false → ¬(p.miss_rate_pct > 10 ∧ p.miss_rate_blocks ≥ 5) →
        p.warmup_done = true → p.miss_rate_pct ≤ 1/2 → computeMode p = 2) ∧
      (p.in_ibd = false → ¬(p.miss_rate_pct > 10 ∧ p.miss_rate_blocks ≥ 5) →
        p.warmup_done = true → ¬(p.miss_rate_pct ≤ 1/2) → computeMode p = 1) ∧
      (p.in_ibd = false → ¬(p.miss_rate_pct > 10 ∧ p.miss_rate_blocks ≥ 5) →
        p.warmup_done = false → computeMode p = 0) := by
  refine ⟨?_, ?_, ?_, ?_, ?_⟩
  · intro h; simp [computeMode, h]
  · intro h h1 h2; simp [computeMode, h, h1, h2]
  · intro h h1 h2 h3
    have h3' : p.miss_rate_pct ≤ 2⁻¹ := by
      rw [show ((2 : ℚ))⁻¹ = 1/2 by norm_num]
      exact h3
    simp [computeMode, h, h1, h2, h3']
  · intro h h1 h2 h3
    have h3' : ¬p.miss_rate_pct ≤ 2⁻¹ := by
      rw [show ((2 : ℚ))⁻¹ = 1/2 by norm_num]
      exact h3
    simp [computeMode, h, h1, h2, h3']
  · intro h h1 h2; simp [computeMode, h, h1, h2]

/-- Witness for C9: with `in_ibd=true` and all other inputs pushed toward
high-bandwidth the mode is still 0. -/
theorem claim_C9_relay_mode_witness :
    computeMode ⟨true, true, 0, 0⟩ = 0 :=
  (claim_C9_relay_mode ⟨true, true, 0, 0⟩).1 rfl

/-- C4: the admission storm trigger is a strict inequality: `fill_pct` is
`100*global_bytes/global_limit` (0 when the limit is non-positive) and
`storm_mode` holds iff `fill_pct` strictly exceeds the trigger; at
`fill_pct = 90.0` with the default trigger `90.0` storm mode is off. -/
theorem claim_C4_storm_strict (g L : ℤ) (trig : ℚ) :
    (stormMode g L trig = true ↔ fillPct g L > trig) ∧
      (L ≤ 0 → fillPct g L = 0) ∧
      (0 < L → fillPct g L = 100 * (g : ℚ) / (L : ℚ)) ∧
      (fillPct g L = 90 → stormMode g L 90 = false) := by
  refine ⟨by simp [stormMode], ?_, ?_, ?_⟩
  · intro h; simp [fillPct, h]
  · intro h; rw [fillPct, if_neg (by omega)]
  · intro h; simp [stormMode, h]

/-- Witness for C4: `global_bytes=90`, `global_limit=100` gives `fill_pct`
exactly 90 and storm mode off at trigger 90. -/
theorem claim_C4_storm_strict_witness : stormMode 90 100 90 = false :=
  (claim_C4_storm_strict 90 100 90).2.2.2 (by norm_num [fillPct])

/-- C5: while storm mode is active admission requires the item to be
commit-bearing: a non-commit item is rejected regardless of byte headroom,
and a commit-bearing item is admitted iff the global byte budget check
passes.  `commit_bearing` is the disjunction of the three item flags. -/
theorem claim_C5_storm_commit_bearing (g L inc : ℤ) (hasCommit : Bool)
    (trig fill : ℚ) (c1 c2 c3 : Bool) :
    (stormMode g L trig = true → hasCommit = false →
        admitStorm g L inc hasCommit trig = false) ∧
      (hasCommit = true →
        admitStorm g L inc hasCommit trig = decide (g + inc ≤ L)) ∧
      (fill > trig → commitBearing c1 c2 c3 = false →
        admitCommitBearing fill trig c1 c2 c3 = false) ∧
      (commitBearing c1 c2 c3 = true →
        admitCommitBearing fill trig c1 c2 c3 = true) := by
  refine ⟨?_, ?_, ?_, ?_⟩
  · intro hs hc; simp [admitStorm, hs, hc]
  · intro hc; simp [admitStorm, hc]
  · intro hf hb; simp [admitCommitBearing, hf, hb]
  · intro hb; simp [admitCommitBearing, hb]

/-- Witness for C5 at the spec's Scenario C numbers: `global_limit=100`,
`current=95`, `incoming=1`, trigger `90`: a non-commit item is rejected even
though the byte budget (95+1 ≤ 100) would admit it. -/
theorem claim_C5_storm_commit_bearing_witness :
    admitStorm 95 100 1 false 90 = false ∧ (95 : ℤ) + 1 ≤ 100 :=
  ⟨(claim_C5_storm_commit_bearing 95 100 1 false 90 0 false false false).1
      (by norm_num [stormMode, fillPct]) rfl,
    by norm_num⟩

theorem charListLe_total : ∀ (as bs : List Char),
    charListLe as bs = true ∨ charListLe bs as = true
  | [], bs => Or.inl rfl
  | a :: as, [] => Or.inr rfl
  | a :: as, b :: bs => by
      simp only [charListLe]
      rcases lt_trichotomy a b with h | h | h
      · left; rw [if_pos h]
      · subst h
        rw [if_neg (lt_irrefl a), if_neg (lt_irrefl a), if_neg (lt_irrefl a),
          if_neg (lt_irrefl a)]
        exact charListLe_total as bs
      · right; rw [if_pos h]

theorem charListLe_trans : ∀ (as bs cs : List Char),
    charListLe as bs = true → charListLe bs cs = true → charListLe as cs = true
  | [], _, _ => by intro _ _; rfl
  | a :: as, [], cs => by intro h _; simp [charListLe] at h
  | a :: as, b :: bs, [] => by intro _ h; simp [charListLe] at h
  | a :: as, b :: bs, c :: cs => by
      simp only [charListLe]
      intro h1 h2
      by_cases hab : a < b
      · by_cases hbc : b < c
        · rw [if_pos (hab.trans hbc)]
        · have hcb : ¬c < b := by
            by_contra hcb
            rw [if_neg hbc, if_pos hcb] at h2
            exact Bool.false_ne_true h2
          have hbc' : b = c := le_antisymm (not_lt.mp hcb) (not_lt.mp hbc)
          rw [if_pos (hbc' ▸ hab)]
      · have hba : ¬b < a := by
          by_contra hba
          rw [if_neg hab, if_pos hba] at h1
          exact Bool.false_ne_true h1
        have hab' : a = b := le_antisymm (not_lt.mp hba) (not_lt.mp hab)
        subst hab'
        rw [if_neg hab, if_neg hba] at h1
        by_cases hac : a < c
        · rw [if_pos hac]
        · have hca : ¬c < a := by
            by_contra hca
            rw [if_neg hac, if_pos hca] at h2
            exact Bool.false_ne_true h2
          rw [if_neg hac, if_neg hca] at h2 ⊢
          exact charListLe_trans as bs cs h1 h2

theorem charListLe_antisymm : ∀ (as bs : List Char),
    charListLe as bs = true → charListLe bs as = true → as = bs
  | [], [] => by intro _ _; rfl
  | [], b :: bs => by intro _ h; simp [charListLe] at h
  | a :: as, [] => by intro h _; simp [charListLe] at h
  | a :: as, b :: bs => by
      simp only [charListLe]
      intro h1 h2
      by_cases hab : a < b
      · rw [if_neg (lt_asymm hab), if_pos hab] at h2
        exact absurd h2 Bool.false_ne_true
      · by_cases hba : b < a
        · rw [if_neg hab, if_pos hba] at h1
          exact absurd h1 Bool.false_ne_true
        · rw [if_neg hab, if_neg hba] at h1
          rw [if_neg hba, if_neg hab] at h2
          have : a = b := le_antisymm (not_lt.mp hba) (not_lt.mp hab)
          rw [this, charListLe_antisymm as bs h1 h2]

theorem strLe_total (a b : String) : strLe a b = true ∨ strLe b a = true :=
  charListLe_total a.data b.data

theorem strLe_trans (a b c : String) (h1 : strLe a b = true)
    (h2 : strLe b c = true) : strLe a c = true :=
  charListLe_trans a.data b.data c.data h1 h2

theorem strLe_antisymm (a b : String) (h1 : strLe a b = true)
    (h2 : strLe b a = true) : a = b := by
  cases a with
  | mk as =>
      cases b with
      | mk bs => exact congrArg String.mk (charListLe_antisymm as bs h1 h2)

theorem normLe_total (a b : NormEntry) : (normLe a b || normLe b a) = true := by
  rw [Bool.or_eq_true]
  unfold normLe
  rcases lt_trichotomy a.density b.density with h | h | h
  · left; rw [if_pos h]
  · rw [h]
    rw [if_neg (lt_irrefl _), if_neg (lt_irrefl _), if_neg (lt_irrefl _),
      if_neg (lt_irrefl _)]
    rcases lt_trichotomy a.received_time b.received_time with h2 | h2 | h2
    · left; rw [if_pos h2]
    · rw [h2]
      rw [if_neg (lt_irrefl _), if_neg (lt_irrefl _), if_neg (lt_irrefl _),
        if_neg (lt_irrefl _)]
      exact strLe_total a.da_id b.da_id
    · right; rw [if_pos h2]
  · right; rw [if_pos h]

theorem normLe_trans (a b c : NormEntry) (h1 : normLe a b = true)
    (h2 : normLe b c = true) : normLe a c = true := by
  unfold normLe at h1 h2 ⊢
  by_cases hab : a.density < b.density
  · by_cases hbc : b.density < c.density
    · rw [if_pos (hab.trans hbc)]
    · have hcb : ¬c.density < b.density := by
        by_contra hcb
        rw [if_neg hbc, if_pos hcb] at h2
        exact Bool.false_ne_true h2
      have : b.density = c.density := le_antisymm (not_lt.mp hcb) (not_lt.mp hbc)
      rw [if_pos (this ▸ hab)]
  · have hba : ¬b.density < a.density := by
      by_contra hba
      rw [if_neg hab, if_pos hba] at h1
      exact Bool.false_ne_true h1
    have hdab : a.density = b.density := le_antisymm (not_lt.mp hba) (not_lt.mp hab)
    rw [if_neg hab, if_neg hba] at h1
    by_cases hbc : b.density < c.density
    · rw [if_pos (hdab ▸ hbc)]
    · have hcb : ¬c.density < b.density := by
        by_contra hcb
        rw [if_neg hbc, if_pos hcb] at h2
        exact Bool.false_ne_true h2
      rw [if_neg hbc, if_neg hcb] at h2
      have hdbc : b.density = c.density := le_antisymm (not_lt.mp hcb) (not_lt.mp hbc)
      have hdac : a.density = c.density := hdab.trans hdbc
      rw [if_neg (by rw [hdac]; exact lt_irrefl _),
        if_neg (by rw [hdac]; exact lt_irrefl _)]
      by_cases tab : a.received_time < b.received_time
      · by_cases tbc : b.received_time < c.received_time
        · rw [if_pos (tab.trans tbc)]
        · have tcb : ¬c.received_time < b.received_time := by
            by_contra tcb
            rw [if_neg tbc, if_pos tcb] at h2
            exact Bool.false_ne_true h2
          have : b.received_time = c.received_time := by omega
          rw [if_pos (this ▸ tab)]
      · have tba : ¬b.received_time < a.received_time := by
          by_contra tba
          rw [if_neg tab, if_pos tba] at h1
          exact Bool.false_ne_true h1
        have ttab : a.received_time = b.received_time := by omega
        rw [if_neg tab, if_neg tba] at h1
        by_cases tbc : b.received_time < c.received_time
        · rw [if_pos (ttab ▸ tbc)]
        · have tcb : ¬c.received_time < b.received_time := by
            by_contra tcb
            rw [if_neg tbc, if_pos tcb] at h2
            exact Bool.false_ne_true h2
          rw [if_neg tbc, if_neg tcb] at h2
          have ttbc : b.received_time = c.received_time := by omega
          have ttac : a.received_time = c.received_time := ttab.trans ttbc
          rw [if_neg (by rw [ttac]; exact lt_irrefl _),
            if_neg (by rw [ttac]; exact lt_irrefl _)]
          exact strLe_trans _ _ _ h1 h2

theorem normLe_antisymm (a b : NormEntry) (h1 : normLe a b = true)
    (h2 : normLe b a = true) : a = b := by
  unfold normLe at h1 h2
  by_cases hab : a.density < b.density
  · rw [if_neg (lt_asymm hab), if_pos hab] at h2
    exact absurd h2 Bool.false_ne_true
  · by_cases hba : b.density < a.density
    · rw [if_neg hab, if_pos hba] at h1
      exact absurd h1 Bool.false_ne_true
    · rw [if_neg hab, if_neg hba] at h1
      rw [if_neg hba, if_neg hab] at h2
      have hd : a.density = b.density := le_antisymm (not_lt.mp hba) (not_lt.mp hab)
      by_cases tab : a.received_time < b.received_time
      · rw [if_neg (lt_asymm tab), if_pos tab] at h2
        exact absurd h2 Bool.false_ne_true
      · by_cases tba : b.received_time < a.received_time
        · rw [if_neg tab, if_pos tba] at h1
          exact absurd h1 Bool.false_ne_true
        · rw [if_neg tab, if_neg tba] at h1
          rw [if_neg tba, if_neg tab] at h2
          have ht : a.received_time = b.received_time := by omega
          have hid : a.da_id = b.da_id := strLe_antisymm _ _ h1 h2
          cases a
          cases b
          simp_all

theorem getD_append_offset (pre rest : List ℕ) (i : ℕ) :
    (pre ++ rest).getD (pre.length + i) 0 = rest.getD i 0 := by
  rw [List.getD_append_right pre rest 0 (pre.length + i) (Nat.le_add_right _ _)]
  congr 1
  omega

/-- Decoding a compact-size integer placed right after an arbitrary prefix
recovers the encoded value and advances the offset by the encoding length,
for every value below `2^64`. -/
theorem decCompactSize_spec (pre post : List ℕ) (n : ℕ) (hn : n < 2 ^ 64) :
    decCompactSize (pre ++ (encCompactSize n ++ post)) pre.length =
      (n, pre.length + (encCompactSize n).length) := by
  have hoff : ∀ i : ℕ,
      (pre ++ (encCompactSize n ++ post)).getD (pre.length + i) 0 =
        (encCompactSize n ++ post).getD i 0 :=
    fun i => getD_append_offset pre _ i
  have hoff0 : (pre ++ (encCompactSize n ++ post)).getD pre.length 0 =
      (encCompactSize n ++ post).getD 0 0 := by
    simpa using hoff 0
  by_cases h1 : n < 0xFD
  · simp only [encCompactSize, if_pos h1] at hoff hoff0 ⊢
    simp only [decCompactSize, hoff0, hoff]
    rw [if_pos (show (([n] ++ post).getD 0 0) < 0xFD from h1)]
    rfl
  · by_cases h2 : n ≤ 0xFFFF
    · simp only [encCompactSize, if_neg h1, if_pos h2] at hoff hoff0 ⊢
      simp only [decCompactSize, hoff0, hoff]
      have e0 : (([0xFD, n % 256, n / 2 ^ 8 % 256] ++ post).getD 0 0) = 0xFD := rfl
      have e1 : (([0xFD, n % 256, n / 2 ^ 8 % 256] ++ post).getD 1 0) = n % 256 := rfl
      have e2 : (([0xFD, n % 256, n / 2 ^ 8 % 256] ++ post).getD 2 0) =
          n / 2 ^ 8 % 256 := rfl
      rw [e0, e1, e2, if_neg (by norm_num), if_pos rfl]
      have hv : n % 256 + n / 2 ^ 8 % 256 * 2 ^ 8 = n := by
        have h8 : (2 : ℕ) ^ 8 = 256 := by norm_num
        rw [h8]
        omega
      rw [hv]
      rfl
    · by_cases h3 : n ≤ 0xFFFFFFFF
      · simp only [encCompactSize, if_neg h1, if_neg h2, if_pos h3] at hoff hoff0 ⊢
        simp only [decCompactSize, hoff0, hoff]
        have e0 : (([0xFE, n % 256, n / 2 ^ 8 % 256, n / 2 ^ 16 % 256,
            n / 2 ^ 24 % 256] ++ post).getD 0 0) = 0xFE := rfl
        have e1 : (([0xFE, n % 256, n / 2 ^ 8 % 256, n / 2 ^ 16 % 256,
            n / 2 ^ 24 % 256] ++ post).getD 1 0) = n % 256 := rfl
        have e2 : (([0xFE, n % 256, n / 2 ^ 8 % 256, n / 2 ^ 16 % 256,
            n / 2 ^ 24 % 256] ++ post).getD 2 0) = n / 2 ^ 8 % 256 := rfl
        have e3 : (([0xFE, n % 256, n / 2 ^ 8 % 256, n / 2 ^ 16 % 256,
            n / 2 ^ 24 % 256] ++ post).getD 3 0) = n / 2 ^ 16 % 256 := rfl
        have e4 : (([0xFE, n % 256, n / 2 ^ 8 % 256, n / 2 ^ 16 % 256,
            n / 2 ^ 24 % 256] ++ post).getD 4 0) = n / 2 ^ 24 % 256 := rfl
        rw [e0, e1, e2, e3, e4, if_neg (by norm_num), if_neg (by norm_num),
          if_pos rfl]
        have hv : n % 256 + n / 2 ^ 8 % 256 * 2 ^ 8 + n / 2 ^ 16 % 256 * 2 ^ 16 +
            n / 2 ^ 24 % 256 * 2 ^ 24 = n := by
          have h8 : (2 : ℕ) ^ 8 = 256 := by norm_num
          have h16 : (2 : ℕ) ^ 16 = 65536 := by norm_num
          have h24 : (2 : ℕ) ^ 24 = 16777216 := by norm_num
          rw [h8, h16, h24]
          omega
        rw [hv]
        rfl
      · simp only [encCompactSize, if_neg h1, if_neg h2, if_neg h3] at hoff hoff0 ⊢
        simp only [decCompactSize, hoff0, hoff]
        have e0 : (([0xFF, n % 256, n / 2 ^ 8 % 256, n / 2 ^ 16 % 256,
            n / 2 ^ 24 % 256, n / 2 ^ 32 % 256, n / 2 ^ 40 % 256,
            n / 2 ^ 48 % 256, n / 2 ^ 56 % 256] ++ post).getD 0 0) = 0xFF := rfl
        have e1 : (([0xFF, n % 256, n / 2 ^ 8 % 256, n / 2 ^ 16 % 256,
            n / 2 ^ 24 % 256, n / 2 ^ 32 % 256, n / 2 ^ 40 % 256,
            n / 2 ^ 48 % 256, n / 2 ^ 56 % 256] ++ post).getD 1 0) = n % 256 := rfl
        have e2 : (([0xFF, n % 256, n / 2 ^ 8 % 256, n / 2 ^ 16 % 256,
            n / 2 ^ 24 % 256, n / 2 ^ 32 % 256, n / 2 ^ 40 % 256,
            n / 2 ^ 48 % 256, n / 2 ^ 56 % 256] ++ post).getD 2 0) =
          n / 2 ^ 8 % 256 := rfl
        have e3 : (([0xFF, n % 256, n / 2 ^ 8 % 256, n / 2 ^ 16 % 256,
            n / 2 ^ 24 % 256, n / 2 ^ 32 % 256, n / 2 ^ 40 % 256,
            n / 2 ^ 48 % 256, n / 2 ^ 56 % 256] ++ post).getD 3 0) =
          n / 2 ^ 16 % 256 := rfl
        have e4 : (([0xFF, n % 256, n / 2 ^ 8 % 256, n / 2 ^ 16 % 256,
            n / 2 ^ 24 % 256, n / 2 ^ 32 % 256, n / 2 ^ 40 % 256,
            n / 2 ^ 48 % 256, n / 2 ^ 56 % 256] ++ post).getD 4 0) =
          n / 2 ^ 24 % 256 := rfl
        have e5 : (([0xFF, n % 256, n / 2 ^ 8 % 256, n / 2 ^ 16 % 256,
            n / 2 ^ 24 % 256, n / 2 ^ 32 % 256, n / 2 ^ 40 % 256,
            n / 2 ^ 48 % 256, n / 2 ^ 56 % 256] ++ post).getD 5 0) =
          n / 2 ^ 32 % 256 := rfl
        have e6 : (([0xFF, n % 256, n / 2 ^ 8 % 256, n / 2 ^ 16 % 256,
            n / 2 ^ 24 % 256, n / 2 ^ 32 % 256, n / 2 ^ 40 % 256,
            n / 2 ^ 48 % 256, n / 2 ^ 56 % 256] ++ post).getD 6 0) =
          n / 2 ^ 40 % 256 := rfl
        have e7 : (([0xFF, n % 256, n / 2 ^ 8 % 256, n / 2 ^ 16 % 256,
            n / 2 ^ 24 % 256, n / 2 ^ 32 % 256, n / 2 ^ 40 % 256,
            n / 2 ^ 48 % 256, n / 2 ^ 56 % 256] ++ post).getD 7 0) =
          n / 2 ^ 48 % 256 := rfl
        have e8 : (([0xFF, n % 256, n / 2 ^ 8 % 256, n / 2 ^ 16 % 256,
            n / 2 ^ 24 % 256, n / 2 ^ 32 % 256, n / 2 ^ 40 % 256,
            n / 2 ^ 48 % 256, n / 2 ^ 56 % 256] ++ post).getD 8 0) =
          n / 2 ^ 56 % 256 := rfl
        rw [e0, e1, e2, e3, e4, e5, e6, e7, e8, if_neg (by norm_num),
          if_neg (by norm_num), if_neg (by norm_num)]
        have hv : n % 256 + n / 2 ^ 8 % 256 * 2 ^ 8 + n / 2 ^ 16 % 256 * 2 ^ 16 +
            n / 2 ^ 24 % 256 * 2 ^ 24 + n / 2 ^ 32 % 256 * 2 ^ 32 +
            n / 2 ^ 40 % 256 * 2 ^ 40 + n / 2 ^ 48 % 256 * 2 ^ 48 +
            n / 2 ^ 56 % 256 * 2 ^ 56 = n := by
          have h8 : (2 : ℕ) ^ 8 = 256 := by norm_num
          have h16 : (2 : ℕ) ^ 16 = 65536 := by norm_num
          have h24 : (2 : ℕ) ^ 24 = 16777216 := by norm_num
          have h32 : (2 : ℕ) ^ 32 = 4294967296 := by norm_num
          have h40 : (2 : ℕ) ^ 40 = 1099511627776 := by norm_num
          have h48 : (2 : ℕ) ^ 48 = 281474976710656 := by norm_num
          have h56 : (2 : ℕ) ^ 56 = 72057594037927936 := by norm_num
          have h64 : (2 : ℕ) ^ 64 = 18446744073709551616 := by norm_num
          rw [h8, h16, h24, h32, h40, h48, h56]
          rw [h64] at hn
          have d2 : n / 256 / 256 = n / 65536 := by
            rw [Nat.div_div_eq_div_mul]
          have d3 : n / 65536 / 256 = n / 16777216 := by
            rw [Nat.div_div_eq_div_mul]
          have d4 : n / 16777216 / 256 = n / 4294967296 := by
            rw [Nat.div_div_eq_div_mul]
          have d5 : n / 4294967296 / 256 = n / 1099511627776 := by
            rw [Nat.div_div_eq_div_mul]
          have d6 : n / 1099511627776 / 256 = n / 281474976710656 := by
            rw [Nat.div_div_eq_div_mul]
          have d7 : n / 281474976710656 / 256 = n / 72057594037927936 := by
            rw [Nat.div_div_eq_div_mul]
          have e1 : n % 256 + 256 * (n / 256) = n := Nat.mod_add_div n 256
          have e2 : n / 256 % 256 + 256 * (n / 65536) = n / 256 := by
            rw [← d2]
            exact Nat.mod_add_div _ 256
          have e3 : n / 65536 % 256 + 256 * (n / 16777216) = n / 65536 := by
            rw [← d3]
            exact Nat.mod_add_div _ 256
          have e4 : n / 16777216 % 256 + 256 * (n / 4294967296) =
              n / 16777216 := by
            rw [← d4]
            exact Nat.mod_add_div _ 256
          have e5 : n / 4294967296 % 256 + 256 * (n / 1099511627776) =
              n / 4294967296 := by
            rw [← d5]
            exact Nat.mod_add_div _ 256
          have e6 : n / 1099511627776 % 256 + 256 * (n / 281474976710656) =
              n / 1099511627776 := by
            rw [← d6]
            exact Nat.mod_add_div _ 256
          have e7 : n / 281474976710656 % 256 + 256 * (n / 72057594037927936) =
              n / 281474976710656 := by
            rw [← d7]
            exact Nat.mod_add_div _ 256
          have hlt : n / 72057594037927936 < 256 :=
            Nat.div_lt_of_lt_mul (by omega)
          have e8 : n / 72057594037927936 % 256 = n / 72057594037927936 :=
            Nat.mod_eq_of_lt hlt
          rw [e8]
          linarith [e1, e2, e3, e4, e5, e6, e7]
        rw [hv]
        rfl

theorem decCompactSize_at (buf pre post : List ℕ) (n o : ℕ) (hn : n < 2 ^ 64)
    (hbuf : buf = pre ++ (encCompactSize n ++ post)) (ho : o = pre.length) :
    decCompactSize buf o = (n, o + (encCompactSize n).length) := by
  subst hbuf ho
  exact decCompactSize_spec pre post n hn

theorem drop_at (buf pre post : List ℕ) (o : ℕ)
    (hbuf : buf = pre ++ post) (ho : o = pre.length) : buf.drop o = post := by
  subst hbuf ho
  exact List.drop_left pre post

theorem take_at (l post : List ℕ) (k : ℕ) (hk : k = l.length) :
    (l ++ post).take k = l := by
  subst hk
  exact List.take_left l post

/-- C8 (amended): witness wire round-trip for every `suite_id` in `[0, 255]`
and all lengths below `2^64` (the range the 8-byte compact-size arm can
represent): decoding the encoded wire reproduces the triple and consumes the
buffer to its exact end, so `roundtrip_ok` is true. -/
theorem claim_C8_roundtrip (suiteId pubLen sigLen : ℕ)
    (hs : suiteId ≤ 255) (hp : pubLen < 2 ^ 64) (hq : sigLen < 2 ^ 64) :
    witnessRoundtripOk suiteId pubLen sigLen = true := by
  have hsuite : suiteId % 256 = suiteId := Nat.mod_eq_of_lt (by omega)
  set E1 := encCompactSize pubLen with hE1
  set E2 := encCompactSize sigLen with hE2
  set P := List.replicate pubLen 0x11 with hP
  set S := List.replicate sigLen 0x22 with hS
  have hwire : witnessWire suiteId pubLen sigLen =
      [suiteId % 256] ++ (E1 ++ (P ++ (E2 ++ S))) := rfl
  have hg0 : (witnessWire suiteId pubLen sigLen).getD 0 0 = suiteId % 256 := rfl
  have hdec1 : decCompactSize (witnessWire suiteId pubLen sigLen) 1 =
      (pubLen, 1 + E1.length) :=
    decCompactSize_at _ [suiteId % 256] (P ++ (E2 ++ S)) pubLen 1 hp hwire
      (by simp)
  have hdrop1 : (witnessWire suiteId pubLen sigLen).drop (1 + E1.length) =
      P ++ (E2 ++ S) :=
    drop_at _ ([suiteId % 256] ++ E1) (P ++ (E2 ++ S)) _
      (by rw [hwire]; simp [List.append_assoc])
      (by simp only [List.length_append, List.length_singleton])
  have htake1 : (P ++ (E2 ++ S)).take pubLen = P :=
    take_at P _ pubLen (by simp [hP])
  have hdec2 : decCompactSize (witnessWire suiteId pubLen sigLen)
      (1 + E1.length + pubLen) =
      (sigLen, 1 + E1.length + pubLen + E2.length) := by
    have h := decCompactSize_at (witnessWire suiteId pubLen sigLen)
      ([suiteId % 256] ++ (E1 ++ P)) S sigLen (1 + E1.length + pubLen) hq
      (by rw [hwire]; simp [List.append_assoc])
      (by
        simp only [List.length_append, List.length_singleton, hP,
          List.length_replicate]
        omega)
    exact h
  have hdrop2 : (witnessWire suiteId pubLen sigLen).drop
      (1 + E1.length + pubLen + E2.length) = S :=
    drop_at _ ([suiteId % 256] ++ (E1 ++ (P ++ E2))) S _
      (by rw [hwire]; simp [List.append_assoc])
      (by
        simp only [List.length_append, List.length_singleton, hP,
          List.length_replicate]
        omega)
  have htake2 : S.take sigLen = S := by
    rw [hS]
    simp
  have hlen : (witnessWire suiteId pubLen sigLen).length =
      1 + E1.length + pubLen + E2.length + sigLen := by
    rw [hwire]
    simp only [List.length_append, List.length_singleton, hP, hS,
      List.length_replicate]
    omega
  simp only [witnessRoundtripOk, hg0, hdec1, hdec2, hdrop1, htake1, hdrop2,
    htake2, hlen, hsuite, hP, hS, List.length_replicate]
  simp

/-- C8 counterexample: at `pubkey_len = 2^64` the 8-byte compact-size arm
masks every byte to zero, the decoder reads the length back as 0, and
`roundtrip_ok` is false — refuting the claim for arbitrary non-negative
lengths. -/
theorem claim_C8_counterexample : witnessRoundtripOk 1 (2 ^ 64) 0 = false := by
  have henc : encCompactSize (2 ^ 64) = [0xFF, 0, 0, 0, 0, 0, 0, 0, 0] := by
    rw [encCompactSize]
    rw [if_neg (by norm_num), if_neg (by norm_num), if_neg (by norm_num)]
    norm_num
  have hw' : witnessWire 1 (2 ^ 64) 0 =
      [1] ++ ([0xFF, 0, 0, 0, 0, 0, 0, 0, 0] ++
        (List.replicate (2 ^ 64) 0x11 ++
          (encCompactSize 0 ++ List.replicate 0 0x22))) := by
    rw [witnessWire, henc]
  have g1 : (witnessWire 1 (2 ^ 64) 0).getD 1 0 = 0xFF := by rw [hw']; rfl
  have g2 : (witnessWire 1 (2 ^ 64) 0).getD 2 0 = 0 := by rw [hw']; rfl
  have g3 : (witnessWire 1 (2 ^ 64) 0).getD 3 0 = 0 := by rw [hw']; rfl
  have g4 : (witnessWire 1 (2 ^ 64) 0).getD 4 0 = 0 := by rw [hw']; rfl
  have g5 : (witnessWire 1 (2 ^ 64) 0).getD 5 0 = 0 := by rw [hw']; rfl
  have g6 : (witnessWire 1 (2 ^ 64) 0).getD 6 0 = 0 := by rw [hw']; rfl
  have g7 : (witnessWire 1 (2 ^ 64) 0).getD 7 0 = 0 := by rw [hw']; rfl
  have g8 : (witnessWire 1 (2 ^ 64) 0).getD 8 0 = 0 := by rw [hw']; rfl
  have g9 : (witnessWire 1 (2 ^ 64) 0).getD 9 0 = 0 := by rw [hw']; rfl
  have hdec : decCompactSize (witnessWire 1 (2 ^ 64) 0) 1 = (0, 10) := by
    rw [decCompactSize]
    rw [g1, g2, g3, g4, g5, g6, g7, g8, g9]
    rw [if_neg (by norm_num), if_neg (by norm_num), if_neg (by norm_num)]
    norm_num
  simp only [witnessRoundtripOk, hdec]
  simp

/-- Witness for C8's amended theorem at a concrete in-range input. -/
theorem claim_C8_roundtrip_witness : witnessRoundtripOk 1 2 3 = true :=
  claim_C8_roundtrip 1 2 3 (by norm_num) (by norm_num) (by norm_num)

/-- C6: eviction ordering: for candidates with positive `wire_bytes`, the
eviction order is the ascending lexicographic sort on (exact rational
fee-density `fee / wire_bytes`, then `received_time`, then `payload_id`),
and the resulting order is invariant under any permutation of the input
candidate list. -/
theorem claim_C6_eviction_order (entries entries' : List EvictionEntry)
    (hw : ∀ e ∈ entries, 0 < e.wire_bytes)
    (hperm : entries.Perm entries') :
    List.Sorted (fun a b => normLe a b = true) (sortedNormalized entries) ∧
      evictOrder entries = evictOrder entries' := by
  have hsorted : ∀ l : List EvictionEntry,
      List.Sorted (fun a b => normLe a b = true) (sortedNormalized l) := fun l =>
    List.sorted_mergeSort (fun a b c => normLe_trans a b c)
      (fun a b => normLe_total a b) (l.map normalize)
  refine ⟨hsorted entries, ?_⟩
  haveI : IsAntisymm NormEntry (fun a b => normLe a b = true) := ⟨normLe_antisymm⟩
  have hp : (sortedNormalized entries).Perm (sortedNormalized entries') :=
    ((List.mergeSort_perm _ _).trans (hperm.map normalize)).trans
      (List.mergeSort_perm _ _).symm
  have heq : sortedNormalized entries = sortedNormalized entries' :=
    List.eq_of_perm_of_sorted hp (hsorted entries) (hsorted entries')
  rw [evictOrder, evictOrder, heq]

/-- After the first matching commit has been retained, every further valid
matching commit bumps `duplicates_dropped` by one and appends its peer,
whatever that peer is. -/
theorem dupFold_after_first (target p : String) (htarget : target ≠ "") :
    ∀ (cs : List CommitObs) (d : ℕ) (pen : List String),
      (∀ c ∈ cs, c.da_id = target ∧ c.peer ≠ "") →
      cs.foldlM dupCommitStep ⟨target, some p, d, pen⟩ =
        some ⟨target, some p, d + cs.length, pen ++ cs.map CommitObs.peer⟩
  | [], d, pen, _ => by simp [List.foldlM]
  | c :: cs, d, pen, hv => by
      have hc := hv c (List.mem_cons_self _ _)
      have hstep : dupCommitStep ⟨target, some p, d, pen⟩ c =
          some ⟨target, some p, d + 1, pen ++ [c.peer]⟩ := by
        rw [dupCommitStep]
        rw [if_neg (by
          push_neg
          exact ⟨by rw [hc.1]; exact htarget, hc.2⟩)]
        simp only [if_neg (show ¬(target : String) = "" from htarget)]
        rw [if_neg (by simp [hc.1])]
      rw [List.foldlM_cons, hstep]
      show cs.foldlM dupCommitStep _ = _
      rw [dupFold_after_first target p htarget cs (d + 1) (pen ++ [c.peer])
        (fun x hx => hv x (List.mem_cons_of_mem _ hx))]
      simp only [List.length_cons, List.map_cons, List.append_assoc,
        List.singleton_append]
      have harith : d + 1 + cs.length = d + (cs.length + 1) := by omega
      rw [harith]

/-- C1 counterexample: two commits for the same id from the **same** peer.
The code counts the second one as a dropped duplicate and flags that peer,
although zero later commits come from a peer different from the retained
one — refuting the claim's "exactly for each later commit … from a different
peer than the retained one". -/
theorem claim_C1_counterexample :
    resolveDuplicateCommits "x" [⟨"x", "p"⟩, ⟨"x", "p"⟩] =
        some ⟨some "p", 1, ["p"], false⟩ ∧
      List.countP (fun c => decide (c.peer ≠ "p"))
        [(⟨"x", "p"⟩ : CommitObs), ⟨"x", "p"⟩] = 0 := by
  constructor
  · decide
  · decide

/-- C1 (amended): for a non-empty sequence of valid commit observations all
carrying the target `payload_id`, the peer of the first commit is retained,
`replaced` is always false, and **every** later commit for the same id —
from any peer, including the retained one — increments `duplicates_dropped`
and appends its peer to the penalization candidates. -/
theorem claim_C1_first_commit_retained (target : String) (c0 : CommitObs)
    (rest : List CommitObs) (htarget : target ≠ "")
    (hvalid : ∀ c ∈ c0 :: rest, c.da_id = target ∧ c.peer ≠ "") :
    resolveDuplicateCommits target (c0 :: rest) =
      some ⟨some c0.peer, rest.length, rest.map CommitObs.peer, false⟩ := by
  rw [resolveDuplicateCommits, if_neg (by simp)]
  have hc0 := hvalid c0 (List.mem_cons_self _ _)
  have hstep : dupCommitStep ⟨target, none, 0, []⟩ c0 =
      some ⟨target, some c0.peer, 0, []⟩ := by
    rw [dupCommitStep]
    rw [if_neg (by
      push_neg
      exact ⟨by rw [hc0.1]; exact htarget, hc0.2⟩)]
    simp only [if_neg (show ¬(target : String) = "" from htarget)]
    rw [if_neg (by simp [hc0.1])]
  rw [List.foldlM_cons, hstep]
  show Option.map _ (rest.foldlM dupCommitStep _) = _
  rw [dupFold_after_first target c0.peer htarget rest 0 []
    (fun x hx => hvalid x (List.mem_cons_of_mem _ hx))]
  simp

/-- Witness for C1's amended theorem: three commits for id `"x"`, the second
from the same peer as the first, the third from another peer: the first peer
is retained, both later commits are dropped and both their peers flagged. -/
theorem claim_C1_first_commit_retained_witness :
    resolveDuplicateCommits "x" [⟨"x", "p"⟩, ⟨"x", "p"⟩, ⟨"x", "q"⟩] =
      some ⟨some "p", 2, ["p", "q"], false⟩ :=
  claim_C1_first_commit_retained "x" ⟨"x", "p"⟩ [⟨"x", "p"⟩, ⟨"x", "q"⟩]
    (by decide) (by decide)

/-- Witness for C6: on the spec's Scenario D candidates the order is the same
for both input permutations. -/
theorem claim_C6_eviction_order_witness :
    evictOrder [⟨"a", 10, 100, 0⟩, ⟨"b", 5, 100, 0⟩] =
      evictOrder [⟨"b", 5, 100, 0⟩, ⟨"a", 10, 100, 0⟩] :=
  (claim_C6_eviction_order [⟨"a", 10, 100, 0⟩, ⟨"b", 5, 100, 0⟩]
    [⟨"b", 5, 100, 0⟩, ⟨"a", 10, 100, 0⟩] (by decide) (by decide)).2

end RunCvBundle



